import Mathlib

/-!
Verification of the merkel migration tool (git-commit-message driven
database migrations).  The definitions below are a shallow embedding of the
TypeScript sources: `src/git.ts` (directive scanner, `parseGitLog`,
`getNewCommits`), `src/migration.ts` (`Task`, `TaskList.toString`,
`Task.invert`), `src/adapter.ts` (`DbAdapter.waitForPending`),
`src/adapters/postgres.ts` (`PostgresAdapter`) and `src/index.ts`
(`Status.executePendingTasks`).  Machine integers do not occur; dates are
modelled as abstract `Nat` timestamps; SQL state is modelled as the list of
rows of the single `merkel_meta` table.
-/

namespace Merkel

/-- `type TaskType = 'up' | 'down'` (src/migration.ts). -/
inductive TaskType
  | up
  | down
deriving DecidableEq

/-- Rendering of a task type, as interpolated into directive strings. -/
def TaskType.toStr : TaskType → String
  | .up => "up"
  | .down => "down"

/-- `class Migration { name: string }` (src/migration.ts). -/
structure Migration where
  name : String
deriving DecidableEq

/-- `class Task` (src/migration.ts).  The `commit` and `head`
back-references are modelled by the referenced commit's sha1, which is the
only field the adapter ever reads from them (`task.commit.sha1`,
`task.head.sha1`); this breaks the `Commit.tasks`/`Task.commit` reference
cycle of the TypeScript classes. -/
structure Task where
  id : Option Nat := none
  type : TaskType
  migration : Migration
  commit : Option String := none
  head : Option String := none
  appliedAt : Option Nat := none
deriving DecidableEq

/-- `class Commit { sha1; message; tasks }` (src/git.ts).  The `tasks` list
is populated by `parseGitLog`; raw commits (as enumerated by the history
walker before parsing) carry an empty task list. -/
structure Commit where
  sha1 : String
  message : String := ""
  tasks : List Task := []
deriving DecidableEq

/-- `Task.invert()` (src/migration.ts): a new `Task` with every field copied
and the `type` flipped.  The TypeScript method builds a fresh object and
leaves the receiver untouched; in this pure embedding non-mutation is
inherent. -/
def Task.invert (t : Task) : Task :=
  { id := t.id
    type := match t.type with | .up => .down | .down => .up
    migration := t.migration
    commit := t.commit
    head := t.head
    appliedAt := t.appliedAt }

/-! ### The directive scanner

`parseGitLog` (src/git.ts) extracts directives from a commit message with
the JavaScript regular expression `/\[\s*merkel[^\]]*\s*\]/g`, then strips
each match of its surrounding bracket (`replace(/^\s*\[\s*/, '')`,
`replace(/\s*\]\s*$/, '')`), splits it on `/\s+/` and drops the leading
`merkel` keyword; the first remaining token is the task type and the rest
are migration names.  The regular expression is modelled character by
character below: a match starts at a `[` that is followed (after optional
whitespace) by the keyword `merkel` and extends to the next `]` (the class
`[^\]]*` cannot cross one); if no `]` follows there is no match. -/
/-- JavaScript `\s` on the characters that can occur here. -/
def wsChar (c : Char) : Bool :=
  c == ' ' || c == '\t' || c == '\n' || c == '\r' || c == '\x0b' || c == '\x0c'

/-- The characters of the anchoring keyword. -/
def merkelChars : List Char := ['m', 'e', 'r', 'k', 'e', 'l']

/-- The character class `[^\]]`: true for characters other than `]`. -/
def notRB (c : Char) : Bool := !(c == ']')

/-- One attempt of the directive regular expression at the current
position: `[`, optional whitespace, `merkel`, then everything up to the
next `]` inclusive.  Returns the matched block and the rest of the input. -/
def matchDirective : List Char → Option (List Char × List Char)
  | [] => none
  | c :: rest =>
    if c = '[' then
      if merkelChars.isPrefixOf (rest.dropWhile wsChar) then
        match rest.dropWhile notRB with
        | ']' :: rest2 => some ('[' :: (rest.takeWhile notRB ++ [']']), rest2)
        | _ => none
      else none
    else none

/-- The global scan of the regular expression: try a match at every
position, emitting matches left to right and resuming after each one.
Implemented with an explicit fuel (the input length) so that it reduces by
computation. -/
def scanGo : Nat → List Char → List (List Char)
  | _, [] => []
  | 0, _ :: _ => []
  | fuel + 1, c :: cs =>
    match matchDirective (c :: cs) with
    | some (b, r) => b :: scanGo fuel r
    | none => scanGo fuel cs

/-- All matches of `/\[\s*merkel[^\]]*\s*\]/g` in the input. -/
def scanDirectives (cs : List Char) : List (List Char) := scanGo cs.length cs

/-! ### Splitting on whitespace and trimming

`str.split(/\s+/)` splits on maximal whitespace runs; JavaScript keeps an
empty leading (resp. trailing) token when the string starts (resp. ends)
with whitespace.  `str.trim()` removes whitespace from both ends. -/
/-- The maximal non-whitespace runs of the input, with an explicit fuel
(the input length) so that the definition reduces by computation. -/
def tokGo : Nat → List Char → List (List Char)
  | _, [] => []
  | 0, _ :: _ => []
  | fuel + 1, c :: cs =>
    if wsChar c then tokGo fuel cs
    else (c :: cs.takeWhile (fun x => !wsChar x)) :: tokGo fuel (cs.dropWhile (fun x => !wsChar x))

/-- The maximal non-whitespace runs of the input. -/
def wsTokens (cs : List Char) : List (List Char) := tokGo cs.length cs

/-- JavaScript `str.split(/\s+/)` on the character list of `str`. -/
def jsSplitWs (cs : List Char) : List (List Char) :=
  if cs.isEmpty then [[]]
  else
    let toks := wsTokens cs
    let toks2 := if wsChar (cs.headD 'a') then [] :: toks else toks
    if wsChar (cs.getLastD 'a') then toks2 ++ [[]] else toks2

/-- JavaScript `str.trim()` on the character list of `str`. -/
def jsTrimChars (cs : List Char) : List Char :=
  ((cs.dropWhile wsChar).reverse.dropWhile wsChar).reverse

/-- JavaScript `str.trim()`. -/
def jsTrim (s : String) : String := String.mk (jsTrimChars s.data)

/-! ### Parsing one directive block

`parseGitLog` processes each regular-expression match with
`command.replace(/^\s*\[\s*/, '').replace(/\s*\]\s*$/, '').split(/\s+/g).slice(1)`,
then `const type = command.shift()` and one migration name per remaining
token. -/
/-- `replace(/^\s*\[\s*/, '')`: drop leading whitespace, one `[` and the
whitespace after it; if the input does not start that way it is returned
unchanged (the regular expression simply does not match). -/
def stripLeadingDirective (cs : List Char) : List Char :=
  match cs.dropWhile wsChar with
  | '[' :: rest => rest.dropWhile wsChar
  | _ => cs

/-- `replace(/\s*\]\s*$/, '')`: drop trailing whitespace, one `]` and the
whitespace before it; if the input does not end that way it is returned
unchanged. -/
def stripTrailingDirective (cs : List Char) : List Char :=
  match cs.reverse.dropWhile wsChar with
  | ']' :: rest => (rest.dropWhile wsChar).reverse
  | _ => cs

/-- The ordered (type token, migration name) pairs of one matched block.
`slice(1)` drops the `merkel` keyword, `shift()` takes the type token and
the remaining tokens are migration names. -/
def parseBlockPairs (block : List Char) : List (String × String) :=
  match (jsSplitWs (stripTrailingDirective (stripLeadingDirective block))).drop 1 with
  | [] => []
  | ty :: names => names.map (fun n => (String.mk ty, String.mk n))

/-- All ordered (direction token, migration name) pairs embedded in a
commit message, blocks left to right and names left to right inside each
block. -/
def directivePairs (message : String) : List (String × String) :=
  (scanDirectives message.data).flatMap parseBlockPairs

/-! ### Rendering a task list (`TaskList.toString`, src/migration.ts) -/
/-- JavaScript `Array.prototype.join`. -/
def joinSep (sep : String) : List String → String
  | [] => ""
  | [x] => x
  | x :: y :: xs => x ++ sep ++ joinSep sep (y :: xs)

/-- One loop iteration of `TaskList.toString`: the command emitted for one
direction (`''` when no task has that direction).  The single-line form is
replaced by the wrapped multi-line form when it exceeds 72 characters. -/
def renderBlock (ty : TaskType) (tasks : List Task) : String :=
  let ts := tasks.filter (fun t => t.type == ty)
  if ts.isEmpty then ""
  else
    let names := ts.map (fun t => t.migration.name)
    let command := "[merkel " ++ ty.toStr ++ " " ++ joinSep " " names ++ "]\n"
    if command.length > 72 then
      "[\n  merkel " ++ ty.toStr ++ "\n  " ++ joinSep "\n  " names ++ "\n]\n"
    else command

/-- `TaskList.toString(withComment)` (src/migration.ts): nothing for an
empty list; otherwise an optional comment line, the `up` command and the
`down` command, with the final result trimmed. -/
def TaskList.toString (tasks : List Task) (withComment : Bool := false) : String :=
  let str :=
    if tasks.isEmpty then ""
    else
      (if withComment then "# Merkel migrations that need to run after checking out this commit:\n" else "")
        ++ renderBlock .up tasks ++ renderBlock .down tasks
  jsTrim str

/-! ### `parseGitLog` (src/git.ts)

`parseGitLog` splits the output of
`git log --reverse --format=">>>>COMMIT%n%H%n%B"` at the `>>>>COMMIT`
markers; each record yields a sha1 line and the raw message.  The framing
is an I/O detail; the records themselves are modelled directly.  For each
record the message is trimmed, the directive blocks are extracted (tasks in
block order, then name order) and the commit's stored message is the
trimmed message with all directive blocks removed. -/
/-- `message.replace(/\[\s*merkel[^\]]*\s*\]/g, '')`: the input with every
match of the directive regular expression removed (fuelled like the
scanner so that it reduces by computation). -/
def stripGo : Nat → List Char → List Char
  | _, [] => []
  | 0, cs => cs
  | fuel + 1, c :: cs =>
    match matchDirective (c :: cs) with
    | some (_, r) => stripGo fuel r
    | none => c :: stripGo fuel cs

def stripDirectives (cs : List Char) : List Char := stripGo cs.length cs

/-- The unchecked TypeScript cast `command.shift() as TaskType`.  A token
other than `up`/`down` produces a value outside the declared `TaskType`
union; only well-typed directives are modelled (`none` here). -/
def TaskType.fromString : String → Option TaskType
  | "up" => some .up
  | "down" => some .down
  | _ => none

/-- One record of `parseGitLog`: trim the message, build one `Task` per
directive name (with the commit as back-reference) and strip the directive
blocks from the stored message. -/
def parseCommit (sha1 message : String) : Commit :=
  let m := jsTrimChars message.data
  let pairs := (scanDirectives m).flatMap parseBlockPairs
  let tasks := pairs.filterMap (fun p =>
    (TaskType.fromString p.1).map (fun ty =>
      ({ type := ty, migration := { name := p.2 }, commit := some sha1 } : Task)))
  { sha1 := sha1, message := String.mk (jsTrimChars (stripDirectives m)), tasks := tasks }

/-- `parseGitLog` over the per-commit records encoded by the log text. -/
def parseGitLog (records : List Commit) : List Commit :=
  records.map (fun c => parseCommit c.sha1 c.message)

/-! ### The history walker (`getNewCommits`, src/git.ts) -/
/-- `class CommitSequence extends Array<Commit> { isReversed }`, modelled
as a plain list plus the flag. -/
structure CommitSequence where
  commits : List Commit
  isReversed : Bool := false
deriving DecidableEq

/-- The state of the git repository `getNewCommits` queries, for a linear
branch history: all commits that exist in the repository in chronological
order (oldest first) plus the position of `HEAD` on that history (`none`
when no commit exists yet).  After a `git reset`/`git checkout` of an older
commit, `headIdx` moves backwards while the newer commits stay in
`history` (they remain reachable from the branch, so `git show` still
resolves them and `HEAD..sha` ranges still produce them). -/
structure GitRepo where
  history : List Commit
  headIdx : Option Nat := none

/-- `git show --format=%H --no-patch <sha1>` succeeds iff the commit
exists in the repository. -/
def gitShowSucceeds (repo : GitRepo) (sha1 : String) : Bool :=
  repo.history.any (fun c => c.sha1 == sha1)

/-- `hasHead()`: `git show HEAD` succeeds iff a HEAD commit exists. -/
def GitRepo.hasHead (repo : GitRepo) : Bool := repo.headIdx.isSome

/-- The position of a commit on the linear history (first index with the
given sha1). -/
def GitRepo.idxOf (repo : GitRepo) (sha1 : String) : Nat :=
  repo.history.findIdx (fun c => c.sha1 == sha1)

/-- `git merge-base --is-ancestor <sha1> HEAD` on a linear history: the
commit is an ancestor of HEAD iff its position is at or before HEAD's. -/
def GitRepo.isAncestorOfHead (repo : GitRepo) (sha1 : String) (hIdx : Nat) : Bool :=
  repo.idxOf sha1 ≤ hIdx

/-- `git log --reverse a..b` on a linear history: the commits strictly
after position `a` up to and including position `b`, in chronological
order (`--reverse`). -/
def logRange (history : List Commit) (a b : Nat) : List Commit :=
  (history.take (b + 1)).drop (a + 1)

/-- `UnknownCommitError` (src/git.ts): the `since` commit does not exist in
this repository (e.g. shallow clone). -/
inductive GitError
  | unknownCommit (sha1 : String)
deriving DecidableEq

/-- `getNewCommits(since?)` (src/git.ts): fail with `UnknownCommitError`
when `since` does not resolve; return an empty sequence when the
repository has no HEAD; otherwise determine the walk direction with the
ancestry test and enumerate `since..HEAD` (forward) or `HEAD..since`
(reversed, same chronological order, `isReversed` set). -/
def getNewCommits (repo : GitRepo) (since : Option Commit := none) :
    Except GitError CommitSequence :=
  match since with
  | some s =>
    if !gitShowSucceeds repo s.sha1 then
      .error (.unknownCommit s.sha1)
    else if !repo.hasHead then
      .ok { commits := [] }
    else
      let hIdx := repo.headIdx.getD 0
      let headBehindLastMigration := !repo.isAncestorOfHead s.sha1 hIdx
      let range :=
        if headBehindLastMigration then logRange repo.history hIdx (repo.idxOf s.sha1)
        else logRange repo.history (repo.idxOf s.sha1) hIdx
      .ok { commits := parseGitLog range, isReversed := headBehindLastMigration }
  | none =>
    if !repo.hasHead then
      .ok { commits := [] }
    else
      let hIdx := repo.headIdx.getD 0
      .ok { commits := parseGitLog (repo.history.take (hIdx + 1)), isReversed := false }

/-! ### `Status` (src/index.ts) -/
/-- `class Status { lastTask; head; newCommits }` (src/index.ts). -/
structure Status where
  lastTask : Option Task := none
  head : Option Commit := none
  newCommits : CommitSequence

/-- The task sequence `Status.executePendingTasks` (src/index.ts, lines
36-50) hands to `Task.execute`: it iterates the commits of `newCommits` in
order and, inside each commit, `commit.tasks` in order, passing each task
unchanged — in particular no inversion is applied when
`newCommits.isReversed` is set (contrast `Status.toString`, which displays
`this.newCommits.isReversed ? task.invert() : task`). -/
def Status.executePendingTasks (s : Status) : List Task :=
  s.newCommits.commits.flatMap (fun c => c.tasks)

/-! ### The postgres adapter (src/adapters/postgres.ts)

The single `merkel_meta` table: `id SERIAL PRIMARY KEY, name TEXT,
type merkel_migration_type, commit TEXT (nullable), head TEXT NOT NULL,
applied_at TIMESTAMP (nullable)`.  A row with `applied_at IS NULL` is a
pending task. -/
/-- One row of `merkel_meta` (interface `TableRow`, src/adapter.ts). -/
structure TableRow where
  id : Nat
  name : String
  type : TaskType
  commit : Option String
  head : String
  applied_at : Option Nat
deriving DecidableEq

/-- The `merkel_meta` table contents plus the state of its `SERIAL` id
sequence. -/
structure MerkelMeta where
  rows : List TableRow
  nextId : Nat := 1
deriving DecidableEq

/-- The errors the adapter can throw: `PendingMigrationFoundError`
(src/adapter.ts), `MigrationRunTwiceError` and `FirstDownMigrationError`
(src/migration.ts), and the plain `Error('Task has no HEAD')` guard of
`beginMigrationTask`. -/
inductive AdapterError
  | pendingMigrationFound
  | migrationRunTwice (name : String) (type : TaskType)
  | firstDownMigration (name : String)
  | taskHasNoHead
deriving DecidableEq

/-- `hasPendingMigration()`: `SELECT ... WHERE "applied_at" IS NULL
LIMIT 1` returns a row iff some row is pending. -/
def hasPendingMigration (db : MerkelMeta) : Bool :=
  db.rows.any (fun r => r.applied_at.isNone)

/-- `beginMigrationTask(task)` (src/adapters/postgres.ts): after the
`task.head` guard, `BEGIN TRANSACTION; LOCK TABLE "merkel_meta"` make the
check and insert below one serialized unit.  If a pending row exists,
`PendingMigrationFoundError` is thrown and the `finally` block's `ROLLBACK`
aborts the transaction, leaving the table unchanged (encoded here by
returning only the error).  Otherwise the `INSERT ... RETURNING id` adds
one row with `applied_at` NULL, `COMMIT` publishes it (the `finally`
`ROLLBACK` is then a no-op outside a transaction) and the task's `id` is
set to the returned serial. -/
def beginMigrationTask (db : MerkelMeta) (task : Task) :
    Except AdapterError (MerkelMeta × Task) :=
  match task.head with
  | none => .error .taskHasNoHead
  | some headSha =>
    if hasPendingMigration db then
      .error .pendingMigrationFound
    else
      let row : TableRow :=
        { id := db.nextId
          name := task.migration.name
          type := task.type
          commit := task.commit
          head := headSha
          applied_at := none }
      .ok ({ rows := db.rows ++ [row], nextId := db.nextId + 1 },
           { task with id := some db.nextId })

/-- `ORDER BY "id" DESC LIMIT 1`: the row with the greatest id (`id` is the
primary key; on the tie that unique ids rule out, the earlier row wins). -/
def maxIdRow : List TableRow → Option TableRow
  | [] => none
  | r :: rs =>
    match maxIdRow rs with
    | none => some r
    | some m => if m.id > r.id then some m else some r

/-- `DbAdapter.rowToTask(row)` (src/adapter.ts). -/
def rowToTask (r : TableRow) : Task :=
  { id := some r.id
    type := r.type
    migration := { name := r.name }
    commit := r.commit
    head := some r.head
    appliedAt := r.applied_at }

/-- `getLastMigrationTask()` (src/adapters/postgres.ts):
`SELECT ... WHERE "applied_at" IS NOT NULL ORDER BY "id" DESC LIMIT 1`,
`null` on an empty result, `rowToTask` otherwise. -/
def getLastMigrationTask (db : MerkelMeta) : Option Task :=
  (maxIdRow (db.rows.filter (fun r => r.applied_at.isSome))).map rowToTask

/-- `checkIfTaskCanExecute(task)` (src/adapters/postgres.ts): look up the
most recent finalized row for the task's migration name
(`WHERE "name" = ... AND "applied_at" IS NOT NULL ORDER BY "id" DESC
LIMIT 1`); an `up` task fails if that row exists with type `up`; a `down`
task fails if no such row exists, or if it has type `down`. -/
def checkIfTaskCanExecute (db : MerkelMeta) (task : Task) :
    Except AdapterError Unit :=
  let rows := maxIdRow (db.rows.filter (fun r =>
    r.name == task.migration.name && r.applied_at.isSome))
  match task.type with
  | .up =>
    match rows with
    | some r => if r.type == .up then .error (.migrationRunTwice task.migration.name .up) else .ok ()
    | none => .ok ()
  | .down =>
    match rows with
    | none => .error (.firstDownMigration task.migration.name)
    | some r => if r.type == .down then .error (.migrationRunTwice task.migration.name .down) else .ok ()

/-! ### `DbAdapter.waitForPending` (src/adapter.ts)

The TypeScript method races a `setTimeout` rejection armed at
`1000 * 60 * 10` ms against a loop that calls `hasPendingMigration()` and
sleeps 1000 ms between attempts.  Time is discretized to the poll instants:
poll `k` happens `k` seconds after the start, and the 10-minute ceiling
allows `(1000 * 60 * 10) / 1000 = 600` polls before the rejection fires.
The environment is the predicate `pending k`: what `hasPendingMigration()`
would report at poll `k` (the table is shared with other processes, so this
is an input, not a function of local state). -/
/-- `PendingMigrationTimedOutError` (src/adapter.ts). -/
inductive WaitError
  | pendingMigrationTimedOut
deriving DecidableEq

/-- The poll interval of the wait loop, in milliseconds. -/
def waitPollIntervalMs : Nat := 1000

/-- The hard ceiling of the wait, in milliseconds (`1000 * 60 * 10`). -/
def waitCeilingMs : Nat := 1000 * 60 * 10

/-- The number of polls the ceiling admits. -/
def maxPolls : Nat := waitCeilingMs / waitPollIntervalMs

/-- The poll loop: at each allowed instant return `wasPending` as soon as
no pending migration is observed, otherwise keep polling; when the budget
is exhausted the raced timeout rejects. -/
def waitLoop (pending : Nat → Bool) (wasPending : Bool) (k : Nat) :
    Nat → Except WaitError Bool
  | 0 => .error .pendingMigrationTimedOut
  | budget + 1 =>
    if !pending k then .ok wasPending
    else waitLoop pending true (k + 1) budget

/-- `waitForPending(logger)` (src/adapter.ts): resolves with whether a
pending migration was observed at all, or rejects with
`PendingMigrationTimedOutError` at the ceiling. -/
def waitForPending (pending : Nat → Bool) : Except WaitError Bool :=
  waitLoop pending false 0 maxPolls

/-! ### The reversal scenario (spec §8, "Reversal correctness")

Three commits on one branch; the second and third each carry one `up`
directive; both migrations were applied forward, so the last recorded task
has HEAD = the third commit; then the repository HEAD is reset to the
first commit. -/
/-- The first commit (no directive). -/
def revCommitA : Commit := { sha1 := "a1", message := "first" }

/-- The second commit, carrying `[merkel up m2]`. -/
def revCommitB : Commit := { sha1 := "b2", message := "second\n\n[merkel up m2]" }

/-- The third commit, carrying `[merkel up m3]`. -/
def revCommitC : Commit := { sha1 := "c3", message := "third\n\n[merkel up m3]" }

/-- The repository after `git reset`: HEAD points at the first commit, the
newer commits still exist on the branch. -/
def revRepo : GitRepo :=
  { history := [revCommitA, revCommitB, revCommitC], headIdx := some 0 }

/-- `merkel_meta` after both migrations ran forward: two finalized rows,
most recent head = the third commit. -/
def revDb : MerkelMeta :=
  { rows := [{ id := 1, name := "m2", type := .up, commit := some "b2",
               head := "c3", applied_at := some 100 },
             { id := 2, name := "m3", type := .up, commit := some "c3",
               head := "c3", applied_at := some 200 }]
    nextId := 3 }

/-- The second commit as `parseGitLog` returns it. -/
def revParsedB : Commit :=
  { sha1 := "b2", message := "second"
    tasks := [{ type := .up, migration := ⟨"m2"⟩, commit := some "b2" }] }

/-- The third commit as `parseGitLog` returns it. -/
def revParsedC : Commit :=
  { sha1 := "c3", message := "third"
    tasks := [{ type := .up, migration := ⟨"m3"⟩, commit := some "c3" }] }

/-- The sequence `getNewCommits(since = third commit)` resolves in the
reversal scenario. -/
def revSequence : CommitSequence :=
  match getNewCommits revRepo (some revCommitC) with
  | .ok s => s
  | .error _ => { commits := [] }

/-- The `Status` the coordinator would execute in the reversal scenario. -/
def revStatus : Status :=
  { lastTask := getLastMigrationTask revDb
    head := some revCommitA
    newCommits := revSequence }

/-- `charJoin sep toks`: `Array.prototype.join` at the character level
(the `.data` image of `joinSep`). -/
def charJoin (sep : List Char) : List (List Char) → List Char
  | [] => []
  | [x] => x
  | x :: y :: xs => x ++ sep ++ charJoin sep (y :: xs)

/-- A migration name the directive syntax can carry verbatim: nonempty,
no whitespace (a token boundary) and no `]` (the block terminator). -/
def goodName (s : String) : Prop :=
  s.data ≠ [] ∧ ∀ c ∈ s.data, wsChar c = false ∧ c ≠ ']'

instance (s : String) : Decidable (goodName s) := by
  unfold goodName
  infer_instance

/-- The character shape shared by both command forms `renderBlock` emits:
`[`, optional leading whitespace, `merkel`, whitespace, the type token,
whitespace, the names joined by a whitespace separator, optional trailing
whitespace, `]`. -/
def dirBlock (ty : TaskType) (names : List String)
    (pre mid1 mid2 sep post : List Char) : List Char :=
  '[' :: (pre ++ (merkelChars ++ (mid1 ++ (ty.toStr.data ++
    (mid2 ++ (charJoin sep (names.map String.data) ++ (post ++ [']'])))))))

/-- The hypotheses under which a `dirBlock` scans and parses back. -/
def dirBlockOk (names : List String) (pre mid1 mid2 sep post : List Char) : Prop :=
  (∀ c ∈ pre, wsChar c = true) ∧
  mid1 ≠ [] ∧ (∀ c ∈ mid1, wsChar c = true) ∧
  mid2 ≠ [] ∧ (∀ c ∈ mid2, wsChar c = true) ∧
  sep ≠ [] ∧ (∀ c ∈ sep, wsChar c = true) ∧
  (∀ c ∈ post, wsChar c = true) ∧
  names ≠ [] ∧ (∀ n ∈ names, goodName n)

/-! ## Theorems -/

theorem matchDirective_rest_le {cs b r : List Char} {c : Char}
    (h : matchDirective (c :: cs) = some (b, r)) : r.length ≤ cs.length := by
  unfold matchDirective at h
  by_cases hc : c = '[' <;> simp [hc] at h
  obtain ⟨-, h⟩ := h
  rcases hd : cs.dropWhile notRB with _ | ⟨d, rest2⟩ <;> rw [hd] at h
  · simp at h
  · have hlen : (cs.dropWhile notRB).length ≤ cs.length :=
      (List.dropWhile_sublist notRB).length_le
    rw [hd] at hlen
    by_cases hdc : d = ']'
    · subst hdc
      simp only [Option.some.injEq, Prod.mk.injEq] at h
      obtain ⟨-, hr⟩ := h
      subst hr
      simp only [List.length_cons] at hlen
      omega
    · simp [hdc] at h

theorem scanGo_fuel : ∀ (f₁ f₂ : Nat) (cs : List Char),
    cs.length ≤ f₁ → cs.length ≤ f₂ → scanGo f₁ cs = scanGo f₂ cs := by
  intro f₁
  induction f₁ with
  | zero =>
    intro f₂ cs h₁ _
    have : cs = [] := List.length_eq_zero.mp (Nat.le_zero.mp h₁)
    subst this
    cases f₂ <;> rfl
  | succ f ih =>
    intro f₂ cs h₁ h₂
    cases cs with
    | nil => cases f₂ <;> rfl
    | cons c cs =>
      cases f₂ with
      | zero => simp at h₂
      | succ f₂ =>
        simp only [List.length_cons] at h₁ h₂
        show scanGo (f + 1) (c :: cs) = scanGo (f₂ + 1) (c :: cs)
        rcases hm : matchDirective (c :: cs) with _ | ⟨b, r⟩
        · simp only [scanGo]
          rw [hm]
          exact ih f₂ cs (by omega) (by omega)
        · simp only [scanGo]
          rw [hm]
          have hr := matchDirective_rest_le hm
          exact congrArg (b :: ·) (ih f₂ r (by omega) (by omega))

theorem scanDirectives_nil : scanDirectives [] = [] := rfl

theorem scanDirectives_cons_none {c : Char} {cs : List Char}
    (h : matchDirective (c :: cs) = none) :
    scanDirectives (c :: cs) = scanDirectives cs := by
  unfold scanDirectives
  show scanGo (cs.length + 1) (c :: cs) = _
  simp only [scanGo]
  rw [h]

theorem scanDirectives_cons_some {c : Char} {cs b r : List Char}
    (h : matchDirective (c :: cs) = some (b, r)) :
    scanDirectives (c :: cs) = b :: scanDirectives r := by
  unfold scanDirectives
  show scanGo (cs.length + 1) (c :: cs) = _
  simp only [scanGo]
  rw [h]
  exact congrArg (b :: ·) (scanGo_fuel cs.length r.length r (matchDirective_rest_le h) le_rfl)

/-! ### Helper lemmas about `maxIdRow` (the `ORDER BY id DESC LIMIT 1` model) -/
theorem maxIdRow_eq_none {l : List TableRow} : maxIdRow l = none ↔ l = [] := by
  cases l with
  | nil => simp [maxIdRow]
  | cons r rs =>
    simp only [maxIdRow]
    cases maxIdRow rs with
    | none => simp
    | some m =>
      by_cases h : m.id > r.id <;> simp [h]

theorem maxIdRow_mem {l : List TableRow} {r : TableRow} (h : maxIdRow l = some r) :
    r ∈ l := by
  induction l generalizing r with
  | nil => simp [maxIdRow] at h
  | cons r0 rs ih =>
    simp only [maxIdRow] at h
    rcases hm : maxIdRow rs with _ | m <;> rw [hm] at h
    · simp at h
      simp [h]
    · by_cases hgt : m.id > r0.id <;> simp [hgt] at h
      · subst h
        exact List.mem_cons_of_mem r0 (ih hm)
      · simp [h]

theorem maxIdRow_id_le {l : List TableRow} {r : TableRow} (h : maxIdRow l = some r) :
    ∀ x ∈ l, x.id ≤ r.id := by
  induction l generalizing r with
  | nil => simp
  | cons r0 rs ih =>
    simp only [maxIdRow] at h
    rcases hm : maxIdRow rs with _ | m <;> rw [hm] at h
    · have : rs = [] := maxIdRow_eq_none.mp hm
      subst this
      simp at h ⊢
      simp [h]
    · by_cases hgt : m.id > r0.id <;> simp [hgt] at h
      · subst h
        intro x hx
        rcases List.mem_cons.mp hx with hx0 | hxs
        · subst hx0
          omega
        · exact ih hm x hxs
      · subst h
        intro x hx
        rcases List.mem_cons.mp hx with hx0 | hxs
        · subst hx0
          exact le_rfl
        · exact le_trans (ih hm x hxs) (by omega)

theorem maxIdRow_eq_some_of {l : List TableRow} {r : TableRow}
    (hmem : r ∈ l) (hmax : ∀ x ∈ l, x.id ≤ r.id)
    (hnodup : (l.map TableRow.id).Nodup) : maxIdRow l = some r := by
  induction l with
  | nil => simp at hmem
  | cons r0 rs ih =>
    simp only [maxIdRow]
    rcases hm : maxIdRow rs with _ | m
    · have : rs = [] := maxIdRow_eq_none.mp hm
      subst this
      simp at hmem
      simp [hmem]
    · have hmmem : m ∈ rs := maxIdRow_mem hm
      rcases List.mem_cons.mp hmem with hr0 | hrs
      · subst hr0
        have : m.id ≤ r.id := hmax m (List.mem_cons_of_mem r hmmem)
        have hngt : ¬ m.id > r.id := by omega
        simp [hngt]
      · have hrec : maxIdRow rs = some r :=
          ih hrs (fun x hx => hmax x (List.mem_cons_of_mem r0 hx)) (List.Nodup.of_cons hnodup)
        rw [hm] at hrec
        have hmr : m = r := by simpa using hrec
        subst hmr
        have hr0le : r0.id ≤ m.id := hmax r0 (List.mem_cons_self r0 rs)
        have hne : r0.id ≠ m.id := by
          have : r0.id ∉ rs.map TableRow.id := (List.nodup_cons.mp hnodup).1
          intro hcontra
          exact this (hcontra ▸ List.mem_map_of_mem TableRow.id hmmem)
        have hgt : m.id > r0.id := by omega
        simp [hgt]

/-- C8: `Task.invert` returns a new task with the opposite direction and
otherwise identical fields (`id`, `migration`, `commit`, `head`,
`appliedAt`); the original is not mutated (the embedding is pure and
`invert` constructs a fresh value); inversion is an involution, so
`invert (invert t)` is the very task `t` (same direction, same migration
and, in fact, equal in every field). -/
theorem Task_invert_spec (t : Task) :
    t.invert.type = (match t.type with | .up => .down | .down => .up) ∧
    t.invert.type ≠ t.type ∧
    t.invert.id = t.id ∧
    t.invert.migration = t.migration ∧
    t.invert.commit = t.commit ∧
    t.invert.head = t.head ∧
    t.invert.appliedAt = t.appliedAt ∧
    t.invert.invert = t := by
  obtain ⟨id, ty, m, c, h, a⟩ := t
  cases ty <;> refine ⟨rfl, ?_, rfl, rfl, rfl, rfl, rfl, rfl⟩ <;> intro hcontra <;> cases hcontra

/-- Witness for `Task_invert_spec` at a concrete task. -/
theorem Task_invert_spec_witness :
    (({ type := .up, migration := ⟨"m"⟩ } : Task).invert.type ≠ .up) ∧
    (({ type := .up, migration := ⟨"m"⟩ } : Task).invert.invert =
      { type := .up, migration := ⟨"m"⟩ }) := by
  refine ⟨?_, ?_⟩
  · exact (Task_invert_spec { type := .up, migration := ⟨"m"⟩ }).2.1
  · exact (Task_invert_spec { type := .up, migration := ⟨"m"⟩ }).2.2.2.2.2.2.2

/-- C7: on a repository with no HEAD commit, `getNewCommits()` returns an
empty, non-reversed `CommitSequence` and raises no error. -/
theorem getNewCommits_empty_repo (repo : GitRepo) (h : repo.headIdx = none) :
    getNewCommits repo none = .ok { commits := [], isReversed := false } := by
  simp [getNewCommits, GitRepo.hasHead, h]

/-- Witness for `getNewCommits_empty_repo` on the empty repository. -/
theorem getNewCommits_empty_repo_witness :
    getNewCommits { history := [], headIdx := none } none =
      .ok { commits := [], isReversed := false } :=
  getNewCommits_empty_repo { history := [], headIdx := none } rfl

/-- C6: when the `since` commit does not exist in the repository,
`getNewCommits(since)` fails with `UnknownCommitError` — the result is the
error, not a silently degraded walk of the full history. -/
theorem getNewCommits_unknown_commit (repo : GitRepo) (c : Commit)
    (h : ∀ rc ∈ repo.history, rc.sha1 ≠ c.sha1) :
    getNewCommits repo (some c) = .error (.unknownCommit c.sha1) := by
  have hshow : gitShowSucceeds repo c.sha1 = false := by
    simp only [gitShowSucceeds, List.any_eq_false]
    intro rc hrc
    simpa using h rc hrc
  simp [getNewCommits, hshow]

/-- Witness for `getNewCommits_unknown_commit`: a one-commit repository
and a `since` sha1 that does not occur in it. -/
theorem getNewCommits_unknown_commit_witness :
    getNewCommits { history := [{ sha1 := "aa" }], headIdx := some 0 }
        (some { sha1 := "zz" }) = .error (.unknownCommit "zz") := by
  refine getNewCommits_unknown_commit _ _ ?_
  intro rc hrc
  simp at hrc
  simp [hrc]

/-- C5: the discrete-time model of `DbAdapter.waitForPending`.  If every
poll observes a pending migration, the wait terminates with
`PendingMigrationTimedOutError` once the 10-minute ceiling
(`waitCeilingMs / waitPollIntervalMs` one-second polls) is reached — it
cannot hang forever, the function is total.  If the first poll observes no
pending migration, the wait resolves without error (and reports that no
wait was needed). -/
theorem waitForPending_spec (pending : Nat → Bool) :
    ((∀ k, pending k = true) → waitForPending pending = .error .pendingMigrationTimedOut) ∧
    (pending 0 = false → waitForPending pending = .ok false) := by
  constructor
  · intro h
    have hgen : ∀ budget k was, waitLoop pending was k budget = .error .pendingMigrationTimedOut := by
      intro budget
      induction budget with
      | zero => intro k was; rfl
      | succ b ih =>
        intro k was
        simp only [waitLoop, h k, Bool.not_true, Bool.false_eq_true, if_false]
        exact ih (k + 1) true
    exact hgen maxPolls 0 false
  · intro h
    show waitLoop pending false 0 maxPolls = .ok false
    have : maxPolls = 599 + 1 := rfl
    rw [this]
    simp [waitLoop, h]

/-- Witness for `waitForPending_spec`: the always-pending environment
times out; the never-pending environment succeeds immediately. -/
theorem waitForPending_spec_witness :
    waitForPending (fun _ => true) = .error .pendingMigrationTimedOut ∧
    waitForPending (fun _ => false) = .ok false :=
  ⟨(waitForPending_spec (fun _ => true)).1 (fun _ => rfl),
   (waitForPending_spec (fun _ => false)).2 rfl⟩

/-- C2 (amended): for every task `t` that carries a HEAD commit,
`beginMigrationTask` inserts exactly one new row — pending (`applied_at`
NULL) and carrying the task's name, type, commit and head — and assigns
the serial id to the task, if and only if no pending row exists at the
locked check; when a pending row exists it throws
`PendingMigrationFoundError` and the transaction is rolled back, leaving
the table unchanged (the error result carries no table: the embedding of
`ROLLBACK`). -/
theorem beginMigrationTask_spec (db : MerkelMeta) (t : Task) (hhead : t.head ≠ none) :
    (hasPendingMigration db = false →
      ∃ row : TableRow,
        beginMigrationTask db t =
          .ok ({ rows := db.rows ++ [row], nextId := db.nextId + 1 },
               { t with id := some row.id }) ∧
        row.applied_at = none ∧
        row.name = t.migration.name ∧
        row.type = t.type ∧
        row.commit = t.commit ∧
        some row.head = t.head ∧
        row.id = db.nextId) ∧
    (hasPendingMigration db = true →
      beginMigrationTask db t = .error .pendingMigrationFound) := by
  rcases hh : t.head with _ | headSha
  · exact absurd hh hhead
  constructor
  · intro hp
    refine ⟨{ id := db.nextId, name := t.migration.name, type := t.type,
              commit := t.commit, head := headSha, applied_at := none }, ?_, rfl, rfl, rfl, rfl, ?_, rfl⟩
    · simp [beginMigrationTask, hh, hp]
    · rfl
  · intro hp
    simp [beginMigrationTask, hh, hp]

/-- Witness for `beginMigrationTask_spec`: on the empty table, a task with
a HEAD is registered as the single pending row with id 1. -/
theorem beginMigrationTask_spec_witness :
    (({ type := .up, migration := ⟨"m"⟩, head := some "h" } : Task).head ≠ none) ∧
    (∃ row : TableRow,
      beginMigrationTask { rows := [], nextId := 1 }
          { type := .up, migration := ⟨"m"⟩, head := some "h" } =
        .ok ({ rows := [] ++ [row], nextId := 1 + 1 },
             { ({ type := .up, migration := ⟨"m"⟩, head := some "h" } : Task) with
                 id := some row.id }) ∧
      row.applied_at = none ∧
      row.name = "m" ∧
      row.type = .up ∧
      row.commit = none ∧
      some row.head = some "h" ∧
      row.id = 1) := by
  refine ⟨by simp, ?_⟩
  exact (beginMigrationTask_spec { rows := [], nextId := 1 }
    { type := .up, migration := ⟨"m"⟩, head := some "h" } (by simp)).1 rfl

/-- C2 counterexample: the claim quantifies over every task, but a task
without a HEAD commit is rejected by the `if (!task.head) throw new
Error('Task has no HEAD')` guard before the locked check: no row is
inserted even though no pending row exists, and when a pending row does
exist the error thrown is the HEAD guard's, not
`PendingMigrationFoundError`. -/
theorem beginMigrationTask_headless_counterexample :
    hasPendingMigration { rows := [], nextId := 1 } = false ∧
    beginMigrationTask { rows := [], nextId := 1 }
        { type := .up, migration := ⟨"m"⟩ } = .error .taskHasNoHead ∧
    hasPendingMigration
        { rows := [{ id := 1, name := "p", type := .up, commit := none,
                     head := "h", applied_at := none }], nextId := 2 } = true ∧
    beginMigrationTask
        { rows := [{ id := 1, name := "p", type := .up, commit := none,
                     head := "h", applied_at := none }], nextId := 2 }
        { type := .up, migration := ⟨"m"⟩ } ≠ .error .pendingMigrationFound := by
  refine ⟨rfl, rfl, rfl, ?_⟩
  intro hcontra
  rw [show beginMigrationTask
      { rows := [{ id := 1, name := "p", type := .up, commit := none,
                   head := "h", applied_at := none }], nextId := 2 }
      { type := .up, migration := ⟨"m"⟩ } = .error .taskHasNoHead from rfl] at hcontra
  cases hcontra

/-- C3: `checkIfTaskCanExecute` decides from the task's migration name's
most recent finalized row alone.  When a most recent finalized row `r` for
the name exists (finalized: `applied_at` set; most recent: greatest id),
the check fails with `MigrationRunTwiceError` exactly when `r` has the
task's own direction, and succeeds otherwise; when no finalized row for
the name exists, a `down` task fails with `FirstDownMigrationError` and an
`up` task succeeds.  Ids are assumed distinct (the column is the
`SERIAL PRIMARY KEY`). -/
theorem checkIfTaskCanExecute_spec (db : MerkelMeta) (t : Task)
    (hnodup : (db.rows.map TableRow.id).Nodup) :
    (∀ r ∈ db.rows, r.name = t.migration.name → r.applied_at.isSome →
      (∀ x ∈ db.rows, x.name = t.migration.name → x.applied_at.isSome → x.id ≤ r.id) →
      checkIfTaskCanExecute db t =
        (if r.type = t.type then .error (.migrationRunTwice t.migration.name t.type)
         else .ok ())) ∧
    ((∀ r ∈ db.rows, r.name = t.migration.name → r.applied_at = none) →
      checkIfTaskCanExecute db t =
        (if t.type = .down then .error (.firstDownMigration t.migration.name)
         else .ok ())) := by
  constructor
  · intro r hmem hname happ hmax
    have hfmem : r ∈ db.rows.filter (fun x =>
        x.name == t.migration.name && x.applied_at.isSome) := by
      simp [List.mem_filter, hmem, hname, happ]
    have hfmax : ∀ x ∈ db.rows.filter (fun x =>
        x.name == t.migration.name && x.applied_at.isSome), x.id ≤ r.id := by
      intro x hx
      simp [List.mem_filter] at hx
      exact hmax x hx.1 hx.2.1 hx.2.2
    have hfnodup : ((db.rows.filter (fun x =>
        x.name == t.migration.name && x.applied_at.isSome)).map TableRow.id).Nodup :=
      hnodup.sublist ((List.filter_sublist db.rows).map TableRow.id)
    have hmr : maxIdRow (db.rows.filter (fun x =>
        x.name == t.migration.name && x.applied_at.isSome)) = some r :=
      maxIdRow_eq_some_of hfmem hfmax hfnodup
    rcases ht : t.type <;> rcases hr : r.type <;>
      simp [checkIfTaskCanExecute, hmr, ht, hr]
  · intro hnone
    have hfnil : db.rows.filter (fun x =>
        x.name == t.migration.name && x.applied_at.isSome) = [] := by
      rw [List.filter_eq_nil_iff]
      intro x hx
      simp only [Bool.and_eq_true, beq_iff_eq, not_and]
      intro hn
      rw [hnone x hx hn]
      simp
    rcases ht : t.type <;> simp [checkIfTaskCanExecute, hfnil, maxIdRow, ht]

/-- Witness for `checkIfTaskCanExecute_spec`: two finalized rows for a
name whose latest is `up`; a second `up` is a run-twice error and a fresh
name's `down` is a down-before-up error. -/
theorem checkIfTaskCanExecute_spec_witness :
    checkIfTaskCanExecute
        { rows := [{ id := 1, name := "m", type := .up, commit := none,
                     head := "h", applied_at := some 5 }], nextId := 2 }
        { type := .up, migration := ⟨"m"⟩ } =
      .error (.migrationRunTwice "m" .up) ∧
    checkIfTaskCanExecute
        { rows := [{ id := 1, name := "m", type := .up, commit := none,
                     head := "h", applied_at := some 5 }], nextId := 2 }
        { type := .down, migration := ⟨"x"⟩ } =
      .error (.firstDownMigration "x") := by
  constructor
  · have h := (checkIfTaskCanExecute_spec
      { rows := [{ id := 1, name := "m", type := .up, commit := none,
                   head := "h", applied_at := some 5 }], nextId := 2 }
      { type := .up, migration := ⟨"m"⟩ } (by simp)).1
      { id := 1, name := "m", type := .up, commit := none, head := "h", applied_at := some 5 }
      (by simp) rfl rfl (by simp)
    simpa using h
  · have h := (checkIfTaskCanExecute_spec
      { rows := [{ id := 1, name := "m", type := .up, commit := none,
                   head := "h", applied_at := some 5 }], nextId := 2 }
      { type := .down, migration := ⟨"x"⟩ } (by simp)).2 (by simp)
    simpa using h

/-- C9: `getLastMigrationTask` returns `null` exactly when the table holds
no finalized row; otherwise it returns the task reconstructed
(`rowToTask`) from the finalized row with the greatest id; every returned
task stems from a finalized row, so pending rows are never returned.  Ids
are assumed distinct (`SERIAL PRIMARY KEY`). -/
theorem getLastMigrationTask_spec (db : MerkelMeta)
    (hnodup : (db.rows.map TableRow.id).Nodup) :
    (getLastMigrationTask db = none ↔ ∀ r ∈ db.rows, r.applied_at = none) ∧
    (∀ r ∈ db.rows, r.applied_at.isSome →
      (∀ x ∈ db.rows, x.applied_at.isSome → x.id ≤ r.id) →
      getLastMigrationTask db = some (rowToTask r)) ∧
    (∀ task, getLastMigrationTask db = some task →
      ∃ r ∈ db.rows, r.applied_at.isSome ∧ task = rowToTask r ∧ task.appliedAt.isSome) := by
  refine ⟨?_, ?_, ?_⟩
  · unfold getLastMigrationTask
    rw [Option.map_eq_none', maxIdRow_eq_none, List.filter_eq_nil_iff]
    constructor
    · intro h r hmem
      have := h r hmem
      simpa using this
    · intro h r hmem
      simp [h r hmem]
  · intro r hmem happ hmax
    have hfmem : r ∈ db.rows.filter (fun x => x.applied_at.isSome) := by
      simp [List.mem_filter, hmem, happ]
    have hfmax : ∀ x ∈ db.rows.filter (fun x => x.applied_at.isSome), x.id ≤ r.id := by
      intro x hx
      simp [List.mem_filter] at hx
      exact hmax x hx.1 hx.2
    have hfnodup : ((db.rows.filter (fun x => x.applied_at.isSome)).map TableRow.id).Nodup :=
      hnodup.sublist ((List.filter_sublist db.rows).map TableRow.id)
    unfold getLastMigrationTask
    rw [maxIdRow_eq_some_of hfmem hfmax hfnodup]
    rfl
  · intro task htask
    unfold getLastMigrationTask at htask
    rcases hmr : maxIdRow (db.rows.filter (fun x => x.applied_at.isSome)) with _ | r
    · rw [hmr] at htask
      simp at htask
    · rw [hmr] at htask
      have hrmem := maxIdRow_mem hmr
      simp only [List.mem_filter] at hrmem
      refine ⟨r, hrmem.1, hrmem.2, ?_, ?_⟩
      · simpa using htask.symm
      · have : task = rowToTask r := by simpa using htask.symm
        rw [this]
        exact hrmem.2

/-- Witness for `getLastMigrationTask_spec`: a pending row (id 2) and a
finalized row (id 1); the finalized row is returned, the pending one
never. -/
theorem getLastMigrationTask_spec_witness :
    getLastMigrationTask
        { rows := [{ id := 1, name := "m", type := .up, commit := none,
                     head := "h", applied_at := some 5 },
                   { id := 2, name := "p", type := .up, commit := none,
                     head := "h", applied_at := none }], nextId := 3 } =
      some (rowToTask { id := 1, name := "m", type := .up, commit := none,
                        head := "h", applied_at := some 5 }) := by
  exact ((getLastMigrationTask_spec
    { rows := [{ id := 1, name := "m", type := .up, commit := none,
                 head := "h", applied_at := some 5 },
               { id := 2, name := "p", type := .up, commit := none,
                 head := "h", applied_at := none }], nextId := 3 } (by simp)).2.1
    { id := 1, name := "m", type := .up, commit := none, head := "h", applied_at := some 5 }
    (by simp) rfl (by decide))

/-- C1 (evaluation of the code at the reversal scenario).  The history
walk behaves as the claim says: `getNewCommits(since = C3)` returns
exactly {C2, C3}, in original chronological order, with `isReversed`
set.  But `Status.executePendingTasks` then executes the commits' tasks
unchanged — the original `up` directives `(up, m2), (up, m3)` — not the
inversions `(down, m2), (down, m3)` the claim (and the project's own
README and `Status.toString` display) prescribe.  The code even
contradicts its own legality check: `checkIfTaskCanExecute` rejects the
first task it would execute with `MigrationRunTwiceError`, while the
inverted task would pass. -/
theorem reversal_executePendingTasks_bug :
    getNewCommits revRepo (some revCommitC) =
      .ok { commits := [revParsedB, revParsedC], isReversed := true } ∧
    revStatus.executePendingTasks.map (fun t => (t.type, t.migration.name)) =
      [(.up, "m2"), (.up, "m3")] ∧
    revStatus.executePendingTasks.map (fun t => (t.type, t.migration.name)) ≠
      ((revParsedB.tasks ++ revParsedC.tasks).map
        (fun t => (t.invert.type, t.migration.name))) ∧
    revStatus.executePendingTasks.head? =
      some { type := .up, migration := ⟨"m2"⟩, commit := some "b2" } ∧
    checkIfTaskCanExecute revDb
        { type := .up, migration := ⟨"m2"⟩, commit := some "b2" } =
      .error (.migrationRunTwice "m2" .up) ∧
    checkIfTaskCanExecute revDb
        ({ type := .up, migration := ⟨"m2"⟩, commit := some "b2" } : Task).invert =
      .ok () := by
  refine ⟨by rfl, by rfl, ?_, by rfl, by rfl, by rfl⟩
  intro hcontra
  rw [show revStatus.executePendingTasks.map (fun t => (t.type, t.migration.name)) =
      [(.up, "m2"), (.up, "m3")] from rfl] at hcontra
  rw [show ((revParsedB.tasks ++ revParsedC.tasks).map
      (fun t => (t.invert.type, t.migration.name))) =
      [(.down, "m2"), (.down, "m3")] from rfl] at hcontra
  simp at hcontra

/-! ### List helpers for the round-trip proof -/
theorem takeWhile_append_pos {p : Char → Bool} {l r : List Char}
    (h : ∀ c ∈ l, p c = true) : (l ++ r).takeWhile p = l ++ r.takeWhile p := by
  induction l with
  | nil => simp
  | cons c cs ih =>
    have hc : p c = true := h c (List.mem_cons_self c cs)
    simp only [List.cons_append, List.takeWhile_cons_of_pos hc]
    rw [ih (fun x hx => h x (List.mem_cons_of_mem c hx))]

theorem dropWhile_append_pos {p : Char → Bool} {l r : List Char}
    (h : ∀ c ∈ l, p c = true) : (l ++ r).dropWhile p = r.dropWhile p := by
  induction l with
  | nil => simp
  | cons c cs ih =>
    have hc : p c = true := h c (List.mem_cons_self c cs)
    simp only [List.cons_append, List.dropWhile_cons_of_pos hc]
    exact ih (fun x hx => h x (List.mem_cons_of_mem c hx))

theorem dropWhile_append_of_ne {p : Char → Bool} {l r : List Char}
    (h : l.dropWhile p ≠ []) : (l ++ r).dropWhile p = l.dropWhile p ++ r := by
  induction l with
  | nil => simp at h
  | cons c cs ih =>
    by_cases hc : p c = true
    · simp only [List.dropWhile_cons_of_pos hc] at h
      simp only [List.cons_append, List.dropWhile_cons_of_pos hc]
      exact ih h
    · simp only [List.cons_append, List.dropWhile_cons_of_neg (by simpa using hc),
        List.dropWhile_cons_of_neg (by simpa using hc)]

theorem dropWhile_eq_self_of_headD {p : Char → Bool} {l : List Char} {d : Char}
    (h : p (l.headD d) = false) : l.dropWhile p = l := by
  cases l with
  | nil => rfl
  | cons c cs =>
    simp only [List.headD_eq_head?_getD, List.head?_cons, Option.getD_some] at h
    exact List.dropWhile_cons_of_neg (by simp [h])

theorem getLastD_append_ne {l r : List Char} {d : Char} (h : r ≠ []) :
    (l ++ r).getLastD d = r.getLastD d := by
  simp only [List.getLastD_eq_getLast?, List.getLast?_append_of_ne_nil _ h]

theorem headD_append_ne {l r : List Char} {d : Char} (h : l ≠ []) :
    (l ++ r).headD d = l.headD d := by
  cases l with
  | nil => exact absurd rfl h
  | cons c cs => simp

theorem headD_mem_pred {P : Char → Bool} {l : List Char} {d : Char}
    (h : l ≠ []) (hall : ∀ c ∈ l, P c = true) : P (l.headD d) = true := by
  cases l with
  | nil => exact absurd rfl h
  | cons c cs => simpa using hall c (List.mem_cons_self c cs)

theorem getLastD_mem_pred {P : Char → Bool} {l : List Char} {d : Char}
    (h : l ≠ []) (hall : ∀ c ∈ l, P c = true) : P (l.getLastD d) = true := by
  induction l generalizing d with
  | nil => exact absurd rfl h
  | cons c cs ih =>
    rw [List.getLastD_cons]
    cases cs with
    | nil => simpa using hall c (by simp)
    | cons c2 cs2 =>
      exact ih (by simp) (fun x hx => hall x (List.mem_cons_of_mem c hx))

/-! ### Tokenizer lemmas -/
theorem tokGo_fuel : ∀ (f₁ f₂ : Nat) (cs : List Char),
    cs.length ≤ f₁ → cs.length ≤ f₂ → tokGo f₁ cs = tokGo f₂ cs := by
  intro f₁
  induction f₁ with
  | zero =>
    intro f₂ cs h₁ _
    have : cs = [] := List.length_eq_zero.mp (Nat.le_zero.mp h₁)
    subst this
    cases f₂ <;> rfl
  | succ f ih =>
    intro f₂ cs h₁ h₂
    cases cs with
    | nil => cases f₂ <;> rfl
    | cons c cs =>
      cases f₂ with
      | zero => simp at h₂
      | succ f₂ =>
        simp only [List.length_cons] at h₁ h₂
        show tokGo (f + 1) (c :: cs) = tokGo (f₂ + 1) (c :: cs)
        by_cases hc : wsChar c = true
        · simp only [tokGo, hc, if_true]
          exact ih f₂ cs (by omega) (by omega)
        · have hc2 : wsChar c = false := by simpa using hc
          simp only [tokGo, hc2, Bool.false_eq_true, if_false]
          have hlen : (cs.dropWhile (fun x => !wsChar x)).length ≤ cs.length :=
            (List.dropWhile_sublist _).length_le
          rw [ih f₂ (cs.dropWhile (fun x => !wsChar x)) (by omega) (by omega)]

theorem wsTokens_ws_cons {c : Char} {cs : List Char} (h : wsChar c = true) :
    wsTokens (c :: cs) = wsTokens cs := by
  unfold wsTokens
  show tokGo (cs.length + 1) (c :: cs) = _
  simp only [tokGo, h, if_true]

theorem wsTokens_ws_append {s r : List Char} (h : ∀ c ∈ s, wsChar c = true) :
    wsTokens (s ++ r) = wsTokens r := by
  induction s with
  | nil => simp
  | cons c cs ih =>
    rw [List.cons_append, wsTokens_ws_cons (h c (List.mem_cons_self c cs))]
    exact ih (fun x hx => h x (List.mem_cons_of_mem c hx))

theorem wsTokens_token {t r : List Char} (ht : t ≠ [])
    (htc : ∀ c ∈ t, wsChar c = false)
    (hr : r = [] ∨ wsChar (r.headD 'x') = true) :
    wsTokens (t ++ r) = t :: wsTokens r := by
  rcases List.exists_cons_of_ne_nil ht with ⟨c, cs, rfl⟩
  have hc : wsChar c = false := htc c (List.mem_cons_self c cs)
  have hcs : ∀ x ∈ cs, wsChar x = false := fun x hx => htc x (List.mem_cons_of_mem c hx)
  have htake : (cs ++ r).takeWhile (fun x => !wsChar x) = cs ++ r.takeWhile (fun x => !wsChar x) :=
    takeWhile_append_pos (fun x hx => by simp [hcs x hx])
  have hdrop : (cs ++ r).dropWhile (fun x => !wsChar x) = r.dropWhile (fun x => !wsChar x) :=
    dropWhile_append_pos (fun x hx => by simp [hcs x hx])
  have htr : r.takeWhile (fun x => !wsChar x) = [] := by
    rcases hr with hr | hr
    · simp [hr]
    · cases r with
      | nil => rfl
      | cons d ds =>
        simp only [List.headD_eq_head?_getD, List.head?_cons, Option.getD_some] at hr
        exact List.takeWhile_cons_of_neg (by simp [hr])
  have hdr : r.dropWhile (fun x => !wsChar x) = r := by
    rcases hr with hr | hr
    · simp [hr]
    · refine dropWhile_eq_self_of_headD (p := fun x => !wsChar x) (d := 'x') ?_
      simp only [List.headD_eq_head?_getD] at hr
      simp [hr]
  show wsTokens (c :: (cs ++ r)) = (c :: cs) :: wsTokens r
  unfold wsTokens
  show tokGo ((cs ++ r).length + 1) (c :: (cs ++ r)) = _
  simp only [tokGo, hc, Bool.false_eq_true, if_false, htake, hdrop, htr, hdr, List.append_nil]
  refine congrArg ((c :: cs) :: ·) ?_
  exact tokGo_fuel (cs ++ r).length r.length r (by simp) le_rfl

/-! ### `charJoin` lemmas -/
theorem joinSep_data (sep : String) (l : List String) :
    (joinSep sep l).data = charJoin sep.data (l.map String.data) := by
  induction l with
  | nil => rfl
  | cons x xs ih =>
    cases xs with
    | nil => rfl
    | cons y ys =>
      show (x ++ sep ++ joinSep sep (y :: ys)).data = _
      rw [String.data_append, String.data_append, ih]
      rfl

theorem charJoin_all {P : Char → Bool} {sep : List Char} {toks : List (List Char)}
    (hsep : ∀ c ∈ sep, P c = true) (htoks : ∀ x ∈ toks, ∀ c ∈ x, P c = true) :
    ∀ c ∈ charJoin sep toks, P c = true := by
  induction toks with
  | nil => simp [charJoin]
  | cons x xs ih =>
    cases xs with
    | nil =>
      simpa [charJoin] using htoks x (List.mem_cons_self x [])
    | cons y ys =>
      intro c hc
      simp only [charJoin, List.append_assoc, List.mem_append] at hc
      rcases hc with hc | hc | hc
      · exact htoks x (List.mem_cons_self x (y :: ys)) c hc
      · exact hsep c hc
      · exact ih (fun z hz => htoks z (List.mem_cons_of_mem x hz)) c hc

theorem charJoin_ne {sep : List Char} {toks : List (List Char)}
    (hne : toks ≠ []) (htoks : ∀ x ∈ toks, x ≠ []) : charJoin sep toks ≠ [] := by
  cases toks with
  | nil => exact absurd rfl hne
  | cons x xs =>
    cases xs with
    | nil => exact htoks x (List.mem_cons_self x [])
    | cons y ys =>
      have hx : x ≠ [] := htoks x (List.mem_cons_self x (y :: ys))
      simp only [charJoin, List.append_assoc]
      intro hcontra
      exact hx (List.append_eq_nil.mp hcontra).1

theorem charJoin_getLastD_nonws {sep : List Char} {toks : List (List Char)} {d : Char}
    (hne : toks ≠ [])
    (htoks : ∀ x ∈ toks, x ≠ [] ∧ ∀ c ∈ x, wsChar c = false) :
    wsChar ((charJoin sep toks).getLastD d) = false := by
  induction toks generalizing d with
  | nil => exact absurd rfl hne
  | cons x xs ih =>
    cases xs with
    | nil =>
      show wsChar (x.getLastD d) = false
      have hx := htoks x (List.mem_cons_self x [])
      have := getLastD_mem_pred (P := fun c => !wsChar c) (d := d) hx.1
        (fun c hc => by simp [hx.2 c hc])
      simpa using this
    | cons y ys =>
      show wsChar ((x ++ sep ++ charJoin sep (y :: ys)).getLastD d) = false
      have hJ : charJoin sep (y :: ys) ≠ [] :=
        charJoin_ne (by simp) (fun z hz => (htoks z (List.mem_cons_of_mem x hz)).1)
      rw [getLastD_append_ne hJ]
      exact ih (by simp) (fun z hz => htoks z (List.mem_cons_of_mem x hz))

theorem wsTokens_join {sep : List Char} {toks : List (List Char)}
    (hsepne : sep ≠ []) (hsep : ∀ c ∈ sep, wsChar c = true)
    (hne : toks ≠ [])
    (htoks : ∀ x ∈ toks, x ≠ [] ∧ ∀ c ∈ x, wsChar c = false) :
    wsTokens (charJoin sep toks) = toks := by
  induction toks with
  | nil => exact absurd rfl hne
  | cons x xs ih =>
    have hx := htoks x (List.mem_cons_self x xs)
    cases xs with
    | nil =>
      show wsTokens x = [x]
      have := wsTokens_token hx.1 hx.2 (Or.inl rfl)
      simpa using this
    | cons y ys =>
      show wsTokens (x ++ sep ++ charJoin sep (y :: ys)) = x :: (y :: ys)
      have hJ : charJoin sep (y :: ys) ≠ [] :=
        charJoin_ne (by simp) (fun z hz => (htoks z (List.mem_cons_of_mem x hz)).1)
      rw [List.append_assoc]
      rw [wsTokens_token hx.1 hx.2 (Or.inr ?_)]
      · rw [wsTokens_ws_append hsep]
        rw [ih (by simp) (fun z hz => htoks z (List.mem_cons_of_mem x hz))]
      · rw [headD_append_ne hsepne]
        exact headD_mem_pred hsepne hsep

/-! ### Scanner and stripper behaviour on well-formed blocks -/
theorem string_mk_data (s : String) : String.mk s.data = s := rfl

theorem matchDirective_ne_lb {c : Char} {cs : List Char} (h : c ≠ '[') :
    matchDirective (c :: cs) = none := by
  unfold matchDirective
  simp [h]

theorem matchDirective_block {inner rest : List Char}
    (hnorb : ∀ c ∈ inner, c ≠ ']')
    (hpre : merkelChars <+: inner.dropWhile wsChar) :
    matchDirective ('[' :: (inner ++ ']' :: rest)) = some ('[' :: (inner ++ [']']), rest) := by
  have hd : (inner ++ ']' :: rest).dropWhile wsChar = inner.dropWhile wsChar ++ ']' :: rest := by
    have hne : inner.dropWhile wsChar ≠ [] := by
      intro hcontra
      rw [hcontra] at hpre
      have : merkelChars = [] := List.prefix_nil.mp hpre
      simp [merkelChars] at this
    exact dropWhile_append_of_ne hne
  have hpre2 : merkelChars.isPrefixOf ((inner ++ ']' :: rest).dropWhile wsChar) = true := by
    rw [List.isPrefixOf_iff_prefix, hd]
    exact hpre.trans (List.prefix_append _ _)
  have htake : (inner ++ ']' :: rest).takeWhile notRB = inner := by
    rw [takeWhile_append_pos (fun c hc => by simp [notRB, hnorb c hc])]
    rw [List.takeWhile_cons_of_neg (by simp [notRB])]
    simp
  have hdrop : (inner ++ ']' :: rest).dropWhile notRB = ']' :: rest := by
    rw [dropWhile_append_pos (fun c hc => by simp [notRB, hnorb c hc])]
    exact List.dropWhile_cons_of_neg (by simp [notRB])
  show (if ('[' : Char) = '[' then
      if merkelChars.isPrefixOf ((inner ++ ']' :: rest).dropWhile wsChar) then
        match (inner ++ ']' :: rest).dropWhile notRB with
        | ']' :: rest2 => some ('[' :: ((inner ++ ']' :: rest).takeWhile notRB ++ [']']), rest2)
        | _ => none
      else none
    else none) = some ('[' :: (inner ++ [']']), rest)
  rw [if_pos rfl, if_pos hpre2, hdrop, htake]
  rfl

theorem stripLeading_lb (l : List Char) :
    stripLeadingDirective ('[' :: l) = l.dropWhile wsChar := by
  unfold stripLeadingDirective
  rw [List.dropWhile_cons_of_neg (by decide)]
  rfl

theorem stripTrailing_rb (l : List Char) :
    stripTrailingDirective (l ++ [']']) = (l.reverse.dropWhile wsChar).reverse := by
  unfold stripTrailingDirective
  rw [List.reverse_append]
  show (match (']' :: l.reverse).dropWhile wsChar with
    | ']' :: rest => (rest.dropWhile wsChar).reverse
    | _ => l ++ [']']) = _
  rw [List.dropWhile_cons_of_neg (by decide)]
  rfl

theorem jsSplitWs_eq_wsTokens {cs : List Char} (h0 : cs ≠ [])
    (h1 : wsChar (cs.headD 'a') = false) (h2 : wsChar (cs.getLastD 'a') = false) :
    jsSplitWs cs = wsTokens cs := by
  have hempty : cs.isEmpty = false := by
    cases cs with
    | nil => exact absurd rfl h0
    | cons c cs => rfl
  have h1a : wsChar (cs.head?.getD 'a') = false := by simpa using h1
  have h2a : wsChar (cs.getLast?.getD 'a') = false := by simpa using h2
  simp [jsSplitWs, hempty, h1a, h2a]

theorem jsTrimChars_trailing_nl {l : List Char}
    (hhead : wsChar (l.headD 'x') = false) (hlast : wsChar (l.getLastD 'x') = false) :
    jsTrimChars (l ++ ['\n']) = l := by
  cases l with
  | nil => rfl
  | cons c cs =>
    simp only [List.headD_eq_head?_getD, List.head?_cons, Option.getD_some] at hhead
    unfold jsTrimChars
    rw [List.cons_append, List.dropWhile_cons_of_neg (by simp [hhead])]
    rw [show (cs ++ ['\n']) = cs ++ ['\n'] from rfl]
    rw [List.reverse_cons, List.reverse_append]
    show ((['\n'] ++ cs.reverse ++ [c]).dropWhile wsChar).reverse = c :: cs
    rw [List.append_assoc, dropWhile_append_pos (by decide)]
    have : wsChar ((cs.reverse ++ [c]).headD 'x') = false := by
      cases hcs : cs.reverse with
      | nil =>
        have : cs = [] := by simpa using congrArg List.reverse hcs
        subst this
        simpa using hhead
      | cons d ds =>
        rw [headD_append_ne (by simp [hcs])]
        have hgl : (c :: cs).getLastD 'x' = d := by
          rw [List.getLastD_cons]
          cases cs with
          | nil => simp at hcs
          | cons e es =>
            simp only [List.getLastD_eq_getLast?]
            rw [← List.head?_reverse, hcs]
            rfl
        have hwd : wsChar d = false := hgl ▸ hlast
        simpa using hwd
    rw [dropWhile_eq_self_of_headD (d := 'x') this]
    rw [List.reverse_append, List.reverse_reverse]
    rfl

/-! ### Parsing a rendered block -/
theorem parseBlockPairs_shaped (ty : TaskType) (names : List String)
    (pre mid1 mid2 sep post : List Char)
    (hpre : ∀ c ∈ pre, wsChar c = true)
    (hmid1 : mid1 ≠ []) (hmid1w : ∀ c ∈ mid1, wsChar c = true)
    (hmid2 : mid2 ≠ []) (hmid2w : ∀ c ∈ mid2, wsChar c = true)
    (hsep : sep ≠ []) (hsepw : ∀ c ∈ sep, wsChar c = true)
    (hpost : ∀ c ∈ post, wsChar c = true)
    (hnames : names ≠ []) (hgood : ∀ n ∈ names, goodName n) :
    parseBlockPairs ('[' :: (pre ++ (merkelChars ++ (mid1 ++ (ty.toStr.data ++
        (mid2 ++ (charJoin sep (names.map String.data) ++ (post ++ [']'])))))))) =
      names.map (fun n => (ty.toStr, n)) := by
  have htoksJ : ∀ x ∈ names.map String.data, x ≠ [] ∧ ∀ c ∈ x, wsChar c = false := by
    intro x hx
    simp only [List.mem_map] at hx
    obtain ⟨n, hn, rfl⟩ := hx
    obtain ⟨h1, h2⟩ := hgood n hn
    exact ⟨h1, fun c hc => (h2 c hc).1⟩
  have hnamesd : names.map String.data ≠ [] := by simpa using hnames
  have hJne : charJoin sep (names.map String.data) ≠ [] :=
    charJoin_ne hnamesd (fun x hx => (htoksJ x hx).1)
  have hJlast : ∀ d, wsChar ((charJoin sep (names.map String.data)).getLastD d) = false :=
    fun d => charJoin_getLastD_nonws hnamesd htoksJ
  have htydne : ty.toStr.data ≠ [] := by cases ty <;> decide
  have htydw : ∀ c ∈ ty.toStr.data, wsChar c = false := by cases ty <;> decide
  unfold parseBlockPairs
  rw [stripLeading_lb, dropWhile_append_pos hpre,
    dropWhile_eq_self_of_headD (d := 'x')
      (by rw [headD_append_ne (by decide)]; decide)]
  rw [show merkelChars ++ (mid1 ++ (ty.toStr.data ++ (mid2 ++
      (charJoin sep (names.map String.data) ++ (post ++ [']']))))) =
      (merkelChars ++ mid1 ++ ty.toStr.data ++ mid2 ++
        charJoin sep (names.map String.data) ++ post) ++ [']'] from by
    simp [List.append_assoc]]
  rw [stripTrailing_rb, List.reverse_append,
    dropWhile_append_pos (fun c hc => hpost c (List.mem_reverse.mp hc)),
    dropWhile_eq_self_of_headD (d := 'x')
      (by
        rw [List.headD_eq_head?_getD, List.head?_reverse, ← List.getLastD_eq_getLast?,
          getLastD_append_ne hJne]
        exact hJlast 'x'),
    List.reverse_reverse]
  rw [show merkelChars ++ mid1 ++ ty.toStr.data ++ mid2 ++
      charJoin sep (names.map String.data) =
      merkelChars ++ (mid1 ++ (ty.toStr.data ++ (mid2 ++
        charJoin sep (names.map String.data)))) from by simp [List.append_assoc]]
  have hR1 : mid1 ++ (ty.toStr.data ++ (mid2 ++ charJoin sep (names.map String.data))) ≠ [] := by
    intro hcontra
    exact hmid1 (List.append_eq_nil.mp hcontra).1
  rw [jsSplitWs_eq_wsTokens
    (by
      intro hcontra
      have := (List.append_eq_nil.mp hcontra).1
      simp [merkelChars] at this)
    (by rw [headD_append_ne (by decide)]; decide)
    (by
      rw [getLastD_append_ne hR1,
        getLastD_append_ne (by
          intro hcontra
          exact htydne (List.append_eq_nil.mp hcontra).1),
        getLastD_append_ne (by
          intro hcontra
          exact hmid2 (List.append_eq_nil.mp hcontra).1),
        getLastD_append_ne hJne]
      exact hJlast 'a')]
  rw [wsTokens_token (by decide) (by decide)
    (Or.inr (by rw [headD_append_ne hmid1]; exact headD_mem_pred hmid1 hmid1w))]
  rw [wsTokens_ws_append hmid1w]
  rw [wsTokens_token htydne htydw
    (Or.inr (by rw [headD_append_ne hmid2]; exact headD_mem_pred hmid2 hmid2w))]
  rw [wsTokens_ws_append hmid2w]
  rw [wsTokens_join hsep hsepw hnamesd htoksJ]
  simp [List.map_map, Function.comp_def]

/-! ### The two shapes `renderBlock` can produce -/
theorem renderBlock_empty {ty : TaskType} {tasks : List Task}
    (h : tasks.filter (fun t => t.type == ty) = []) : renderBlock ty tasks = "" := by
  unfold renderBlock
  rw [h]
  rfl

theorem renderBlock_shape (ty : TaskType) (tasks : List Task)
    (hne : tasks.filter (fun t => t.type == ty) ≠ []) :
    (renderBlock ty tasks).data =
      ('[' :: ([] ++ (merkelChars ++ ([' '] ++ (ty.toStr.data ++ ([' '] ++
        (charJoin [' '] (((tasks.filter (fun t => t.type == ty)).map
          (fun t => t.migration.name)).map String.data) ++ ([] ++ [']'])))))))) ++ ['\n'] ∨
    (renderBlock ty tasks).data =
      ('[' :: (['\n', ' ', ' '] ++ (merkelChars ++ ([' '] ++ (ty.toStr.data ++
        (['\n', ' ', ' '] ++ (charJoin ['\n', ' ', ' ']
            (((tasks.filter (fun t => t.type == ty)).map
              (fun t => t.migration.name)).map String.data) ++
          (['\n'] ++ [']'])))))))) ++ ['\n'] := by
  have hempty : (tasks.filter (fun t => t.type == ty)).isEmpty = false := by
    cases h : tasks.filter (fun t => t.type == ty) with
    | nil => exact absurd h hne
    | cons x xs => rfl
  simp only [renderBlock, hempty, Bool.false_eq_true, if_false]
  by_cases hlen : ("[merkel " ++ ty.toStr ++ " " ++
      joinSep " " ((tasks.filter (fun t => t.type == ty)).map
        (fun t => t.migration.name)) ++ "]\n").length > 72
  · refine Or.inr ?_
    rw [if_pos hlen]
    simp only [String.data_append, joinSep_data]
    simp [merkelChars, List.append_assoc]
  · refine Or.inl ?_
    rw [if_neg hlen]
    simp only [String.data_append, joinSep_data]
    simp [merkelChars, List.append_assoc]

theorem ws_ne_rb {c : Char} (h : wsChar c = true) : c ≠ ']' := by
  intro he
  subst he
  simp [wsChar] at h

theorem parseBlockPairs_dirBlock {ty : TaskType} {names : List String}
    {pre mid1 mid2 sep post : List Char}
    (hok : dirBlockOk names pre mid1 mid2 sep post) :
    parseBlockPairs (dirBlock ty names pre mid1 mid2 sep post) =
      names.map (fun n => (ty.toStr, n)) := by
  obtain ⟨h1, h2, h3, h4, h5, h6, h7, h8, h9, h10⟩ := hok
  exact parseBlockPairs_shaped ty names pre mid1 mid2 sep post h1 h2 h3 h4 h5 h6 h7 h8 h9 h10

theorem matchDirective_dirBlock {ty : TaskType} {names : List String}
    {pre mid1 mid2 sep post : List Char} (rest : List Char)
    (hok : dirBlockOk names pre mid1 mid2 sep post) :
    matchDirective (dirBlock ty names pre mid1 mid2 sep post ++ rest) =
      some (dirBlock ty names pre mid1 mid2 sep post, rest) := by
  obtain ⟨h1, h2, h3, h4, h5, h6, h7, h8, h9, h10⟩ := hok
  have htoksJ : ∀ x ∈ names.map String.data, x ≠ [] ∧ ∀ c ∈ x, wsChar c = false := by
    intro x hx
    simp only [List.mem_map] at hx
    obtain ⟨n, hn, rfl⟩ := hx
    obtain ⟨ha, hb⟩ := h10 n hn
    exact ⟨ha, fun c hc => (hb c hc).1⟩
  have hshape : dirBlock ty names pre mid1 mid2 sep post ++ rest =
      '[' :: ((pre ++ (merkelChars ++ (mid1 ++ (ty.toStr.data ++
        (mid2 ++ (charJoin sep (names.map String.data) ++ post)))))) ++ ']' :: rest) := by
    simp [dirBlock, List.append_assoc]
  have hshape2 : '[' :: ((pre ++ (merkelChars ++ (mid1 ++ (ty.toStr.data ++
        (mid2 ++ (charJoin sep (names.map String.data) ++ post)))))) ++ [']']) =
      dirBlock ty names pre mid1 mid2 sep post := by
    simp [dirBlock, List.append_assoc]
  rw [hshape, matchDirective_block ?hnorb ?hpre, hshape2]
  case hnorb =>
    intro c hc
    simp only [List.mem_append] at hc
    rcases hc with hc | hc
    · exact ws_ne_rb (h1 c hc)
    rcases hc with hc | hc
    · revert hc
      revert c
      decide
    rcases hc with hc | hc
    · exact ws_ne_rb (h3 c hc)
    rcases hc with hc | hc
    · revert hc
      revert c
      cases ty <;> decide
    rcases hc with hc | hc
    · exact ws_ne_rb (h5 c hc)
    rcases hc with hc | hc
    · have hall : ∀ x ∈ charJoin sep (names.map String.data), notRB x = true := by
        refine charJoin_all (fun x hx => by simp [notRB, ws_ne_rb (h7 x hx)]) ?_
        intro x hx d hdx
        obtain ⟨n, hn, rfl⟩ := List.mem_map.mp hx
        have hd := ((h10 n hn).2 d hdx).2
        simp [notRB, hd]
      have := hall c hc
      simpa [notRB] using this
    · exact ws_ne_rb (h8 c hc)
  case hpre =>
    rw [dropWhile_append_pos h1,
      dropWhile_eq_self_of_headD (d := 'x') (by rw [headD_append_ne (by decide)]; decide)]
    exact List.prefix_append _ _

theorem dirBlock_ne {ty : TaskType} {names : List String}
    {pre mid1 mid2 sep post : List Char} :
    dirBlock ty names pre mid1 mid2 sep post ≠ [] := by
  unfold dirBlock
  exact List.cons_ne_nil _ _

theorem dirBlock_headD {ty : TaskType} {names : List String}
    {pre mid1 mid2 sep post : List Char} {d : Char} :
    (dirBlock ty names pre mid1 mid2 sep post).headD d = '[' := rfl

theorem dirBlock_getLastD {ty : TaskType} {names : List String}
    {pre mid1 mid2 sep post : List Char} {d : Char} :
    (dirBlock ty names pre mid1 mid2 sep post).getLastD d = ']' := by
  have h : dirBlock ty names pre mid1 mid2 sep post =
      ('[' :: (pre ++ (merkelChars ++ (mid1 ++ (ty.toStr.data ++
        (mid2 ++ (charJoin sep (names.map String.data) ++ post))))))) ++ [']'] := by
    simp [dirBlock, List.append_assoc]
  rw [h, getLastD_append_ne (by simp)]
  rfl

theorem scanDirectives_dirBlock {ty : TaskType} {names : List String}
    {pre mid1 mid2 sep post : List Char} (rest : List Char)
    (hok : dirBlockOk names pre mid1 mid2 sep post) :
    scanDirectives (dirBlock ty names pre mid1 mid2 sep post ++ rest) =
      dirBlock ty names pre mid1 mid2 sep post :: scanDirectives rest :=
  scanDirectives_cons_some (matchDirective_dirBlock rest hok)

theorem renderBlock_dirBlock (ty : TaskType) (tasks : List Task)
    (hne : tasks.filter (fun t => t.type == ty) ≠ [])
    (hgood : ∀ t ∈ tasks, goodName t.migration.name) :
    ∃ pre mid1 mid2 sep post : List Char,
      (renderBlock ty tasks).data =
        dirBlock ty ((tasks.filter (fun t => t.type == ty)).map (fun t => t.migration.name))
          pre mid1 mid2 sep post ++ ['\n'] ∧
      dirBlockOk ((tasks.filter (fun t => t.type == ty)).map (fun t => t.migration.name))
        pre mid1 mid2 sep post := by
  have hnames_ne : (tasks.filter (fun t => t.type == ty)).map (fun t => t.migration.name) ≠ [] := by
    simpa using hne
  have hnames_good : ∀ n ∈ (tasks.filter (fun t => t.type == ty)).map
      (fun t => t.migration.name), goodName n := by
    intro n hn
    obtain ⟨t, ht, rfl⟩ := List.mem_map.mp hn
    exact hgood t (List.mem_filter.mp ht).1
  rcases renderBlock_shape ty tasks hne with h | h
  · refine ⟨[], [' '], [' '], [' '], [], h, ?_⟩
    exact ⟨by simp, by simp, by decide, by simp, by decide, by simp, by decide, by simp,
      hnames_ne, hnames_good⟩
  · refine ⟨['\n', ' ', ' '], [' '], ['\n', ' ', ' '], ['\n', ' ', ' '], ['\n'], h, ?_⟩
    exact ⟨by decide, by simp, by decide, by simp, by decide, by simp, by decide, by decide,
      hnames_ne, hnames_good⟩

/-- C4 (amended): for every non-empty task list whose migration names are
nonempty and contain neither whitespace nor `]`, rendering with
`TaskList.toString` (single-line or wrapped multi-line form alike) and
re-parsing with the directive parser yields the `up` tasks' (direction,
name) pairs in their original order, followed by the `down` tasks' pairs
in their original order — the canonical order `toString` emits, not
necessarily the original interleaved order of the list. -/
theorem taskList_toString_roundtrip (tasks : List Task) (hne : tasks ≠ [])
    (hgood : ∀ t ∈ tasks, goodName t.migration.name) :
    directivePairs (TaskList.toString tasks) =
      ((tasks.filter (fun t => t.type == TaskType.up)) ++
       (tasks.filter (fun t => t.type == TaskType.down))).map
        (fun t => (t.type.toStr, t.migration.name)) := by
  have hpairs : ∀ ty : TaskType,
      ((tasks.filter (fun t => t.type == ty)).map (fun t => t.migration.name)).map
        (fun n => (ty.toStr, n)) =
      (tasks.filter (fun t => t.type == ty)).map
        (fun t => (t.type.toStr, t.migration.name)) := by
    intro ty
    rw [List.map_map]
    apply List.map_congr_left
    intro t ht
    have hty : t.type = ty := by simpa using (List.mem_filter.mp ht).2
    simp [Function.comp_def, hty]
  have hEmptyFalse : tasks.isEmpty = false := by
    cases tasks with
    | nil => exact absurd rfl hne
    | cons t ts => rfl
  have hdata : (TaskList.toString tasks).data =
      jsTrimChars ((renderBlock .up tasks).data ++ (renderBlock .down tasks).data) := by
    simp only [TaskList.toString, hEmptyFalse, Bool.false_eq_true, if_false]
    simp [jsTrim, String.data_append]
  unfold directivePairs
  rw [hdata]
  by_cases hup : tasks.filter (fun t => t.type == TaskType.up) = [] <;>
    by_cases hdown : tasks.filter (fun t => t.type == TaskType.down) = []
  · exfalso
    rcases tasks with _ | ⟨t, ts⟩
    · exact hne rfl
    rcases hty : t.type with _ | _
    · have : t ∈ (t :: ts).filter (fun t => t.type == TaskType.up) := by
        rw [List.mem_filter]
        exact ⟨List.mem_cons_self t ts, by simp [hty]⟩
      rw [hup] at this
      simp at this
    · have : t ∈ (t :: ts).filter (fun t => t.type == TaskType.down) := by
        rw [List.mem_filter]
        exact ⟨List.mem_cons_self t ts, by simp [hty]⟩
      rw [hdown] at this
      simp at this
  · -- only down tasks
    obtain ⟨pd, m1d, m2d, sd, qd, hD, hokD⟩ := renderBlock_dirBlock .down tasks hdown hgood
    rw [renderBlock_empty hup, hD]
    show (scanDirectives (jsTrimChars (([] : List Char) ++ _))).flatMap parseBlockPairs = _
    rw [List.nil_append,
      jsTrimChars_trailing_nl (by rw [dirBlock_headD]; decide)
        (by rw [dirBlock_getLastD]; decide)]
    have hscan : scanDirectives (dirBlock TaskType.down
        ((tasks.filter (fun t => t.type == TaskType.down)).map (fun t => t.migration.name))
        pd m1d m2d sd qd) = [dirBlock TaskType.down
        ((tasks.filter (fun t => t.type == TaskType.down)).map (fun t => t.migration.name))
        pd m1d m2d sd qd] := by
      have h := @scanDirectives_dirBlock TaskType.down _ _ _ _ _ _ [] hokD
      simpa using h
    rw [hscan]
    simp only [List.flatMap_cons, List.flatMap_nil, List.append_nil]
    rw [parseBlockPairs_dirBlock hokD, hpairs .down, hup]
    simp
  · -- only up tasks
    obtain ⟨pu, m1u, m2u, su, qu, hU, hokU⟩ := renderBlock_dirBlock .up tasks hup hgood
    rw [renderBlock_empty hdown, hU]
    rw [List.append_nil,
      jsTrimChars_trailing_nl (by rw [dirBlock_headD]; decide)
        (by rw [dirBlock_getLastD]; decide)]
    have hscan : scanDirectives (dirBlock TaskType.up
        ((tasks.filter (fun t => t.type == TaskType.up)).map (fun t => t.migration.name))
        pu m1u m2u su qu) = [dirBlock TaskType.up
        ((tasks.filter (fun t => t.type == TaskType.up)).map (fun t => t.migration.name))
        pu m1u m2u su qu] := by
      have h := @scanDirectives_dirBlock TaskType.up _ _ _ _ _ _ [] hokU
      simpa using h
    rw [hscan]
    simp only [List.flatMap_cons, List.flatMap_nil, List.append_nil]
    rw [parseBlockPairs_dirBlock hokU, hpairs .up, hdown]
    simp
  · -- both directions present
    obtain ⟨pu, m1u, m2u, su, qu, hU, hokU⟩ := renderBlock_dirBlock .up tasks hup hgood
    obtain ⟨pd, m1d, m2d, sd, qd, hD, hokD⟩ := renderBlock_dirBlock .down tasks hdown hgood
    rw [hU, hD]
    rw [show (dirBlock TaskType.up
          ((tasks.filter (fun t => t.type == TaskType.up)).map (fun t => t.migration.name))
          pu m1u m2u su qu ++ ['\n']) ++
        (dirBlock TaskType.down
          ((tasks.filter (fun t => t.type == TaskType.down)).map (fun t => t.migration.name))
          pd m1d m2d sd qd ++ ['\n']) =
        (dirBlock TaskType.up
          ((tasks.filter (fun t => t.type == TaskType.up)).map (fun t => t.migration.name))
          pu m1u m2u su qu ++ '\n' :: dirBlock TaskType.down
          ((tasks.filter (fun t => t.type == TaskType.down)).map (fun t => t.migration.name))
          pd m1d m2d sd qd) ++ ['\n'] from by simp]
    rw [jsTrimChars_trailing_nl
      (by rw [headD_append_ne dirBlock_ne, dirBlock_headD]; decide)
      (by
        rw [getLastD_append_ne (List.cons_ne_nil _ _), List.getLastD_cons, dirBlock_getLastD]
        decide)]
    rw [scanDirectives_dirBlock _ hokU]
    rw [scanDirectives_cons_none (matchDirective_ne_lb (by decide))]
    have hscan : scanDirectives (dirBlock TaskType.down
        ((tasks.filter (fun t => t.type == TaskType.down)).map (fun t => t.migration.name))
        pd m1d m2d sd qd) = [dirBlock TaskType.down
        ((tasks.filter (fun t => t.type == TaskType.down)).map (fun t => t.migration.name))
        pd m1d m2d sd qd] := by
      have h := @scanDirectives_dirBlock TaskType.down _ _ _ _ _ _ [] hokD
      simpa using h
    rw [hscan]
    simp only [List.flatMap_cons, List.flatMap_nil, List.append_nil]
    rw [parseBlockPairs_dirBlock hokU, parseBlockPairs_dirBlock hokD,
      hpairs .up, hpairs .down, List.map_append]

/-- C4 counterexample: `TaskList.toString` renders all `up` tasks before
all `down` tasks, so a list with a `down` task before an `up` task does
not re-parse to its own order: the round trip yields the reordered pairs. -/
theorem taskList_toString_reorder_counterexample :
    directivePairs (TaskList.toString
      [({ type := .down, migration := ⟨"a"⟩ } : Task),
       { type := .up, migration := ⟨"b"⟩ }]) = [("up", "b"), ("down", "a")] ∧
    [({ type := .down, migration := ⟨"a"⟩ } : Task),
       { type := .up, migration := ⟨"b"⟩ }].map
        (fun t => (t.type.toStr, t.migration.name)) = [("down", "a"), ("up", "b")] ∧
    ([("up", "b"), ("down", "a")] : List (String × String)) ≠ [("down", "a"), ("up", "b")] := by
  refine ⟨by decide, rfl, by decide⟩

/-- Witness for `taskList_toString_roundtrip` on the counterexample list:
the round trip yields the up-then-down canonical order. -/
theorem taskList_toString_roundtrip_witness :
    directivePairs (TaskList.toString
      [({ type := .down, migration := ⟨"a"⟩ } : Task),
       { type := .up, migration := ⟨"b"⟩ }]) =
      (([({ type := .down, migration := ⟨"a"⟩ } : Task),
         { type := .up, migration := ⟨"b"⟩ }].filter (fun t => t.type == TaskType.up)) ++
       ([({ type := .down, migration := ⟨"a"⟩ } : Task),
         { type := .up, migration := ⟨"b"⟩ }].filter (fun t => t.type == TaskType.down))).map
        (fun t => (t.type.toStr, t.migration.name)) :=
  taskList_toString_roundtrip
    [{ type := .down, migration := ⟨"a"⟩ }, { type := .up, migration := ⟨"b"⟩ }]
    (by decide) (by decide)

end Merkel
